import Mathlib

set_option maxRecDepth 10000

/-!
Verification of `visbrain/utils/sleep/fileconvert.py`.

The Python module is shallowly embedded below: files are lists of text
lines (`List String`) or decoded integer word sequences (`List Int`),
the filesystem is a lookup from path to content, NumPy float arithmetic
is modelled over `ℚ`, and fallible code returns `Option`/`Except`.
-/

/-- ASCII digit character for `n < 10`. -/
def digitChar (n : Nat) : Char := Char.ofNat (48 + n)

/-- Accumulate the decimal value of a run of digit characters. -/
def parseDigitsAux (acc : Nat) : List Char → Option Nat
  | [] => some acc
  | c :: t => if c.isDigit then parseDigitsAux (acc * 10 + (c.toNat - 48)) t else none

/-- Python `int(s)` on a stripped token: an optional leading minus sign
followed by at least one decimal digit. -/
def pyInt? (s : String) : Option Int :=
  match s.toList with
  | [] => none
  | '-' :: t => if t.isEmpty then none else (parseDigitsAux 0 t).map (fun n => -(n : Int))
  | l =>
    if l.all (fun c => c.isDigit) then (parseDigitsAux 0 l).map (fun n => (n : Int))
    else none

/-- Decimal digit characters of `n`, most significant first (fuelled). -/
def natDigitsAux : Nat → Nat → List Char
  | 0, _ => []
  | fuel + 1, n =>
    if n < 10 then [digitChar n] else natDigitsAux fuel (n / 10) ++ [digitChar (n % 10)]

/-- Decimal string of a natural number. -/
def natToStr (n : Nat) : String := String.mk (natDigitsAux (n + 1) n)

/-- Python `str` of an integer. -/
def intToStr (v : Int) : String :=
  if v < 0 then "-" ++ natToStr v.natAbs else natToStr v.natAbs

/-- ASCII lower-casing of one character. -/
def asciiLower (c : Char) : Char :=
  if 'A' ≤ c ∧ c ≤ 'Z' then Char.ofNat (c.toNat + 32) else c

/-- Python `s.lower()` (ASCII). -/
def strLower (s : String) : String := String.mk (s.toList.map asciiLower)

/-- Split a character list at spaces (Python `s.split(' ')` shape). -/
def splitSpaceAux : List Char → List Char → List (List Char)
  | [], cur => [cur.reverse]
  | ' ' :: t, cur => cur.reverse :: splitSpaceAux t []
  | c :: t, cur => splitSpaceAux t (c :: cur)

/-- Fields of a space-delimited line. -/
def splitSpace (s : String) : List String :=
  (splitSpaceAux s.toList []).map String.mk

/-- Effectful map over `Option`: all elements must convert. -/
def mapMOpt {α β : Type} (f : α → Option β) : List α → Option (List β)
  | [] => some []
  | a :: t =>
    match f a, mapMOpt f t with
    | some b, some bs => some (b :: bs)
    | _, _ => none

/-- `np.repeat(l, rep)`: every element of `l` repeated `rep` times, in order. -/
def repeatEach {α : Type} (rep : Nat) : List α → List α
  | [] => []
  | a :: t => List.replicate rep a ++ repeatEach rep t

/-- Fuelled strided slice; `fuel` bounds the recursion by the list length. -/
def stridedAux {α : Type} (step : Nat) : Nat → List α → List α
  | 0, _ => []
  | _, [] => []
  | Nat.succ fuel, a :: t => a :: stridedAux step fuel (t.drop (step - 1))

/-- Python slice `l[::step]` for `step ≥ 1`: elements at indices 0, step, 2*step, ... -/
def strided {α : Type} (step : Nat) (l : List α) : List α :=
  stridedAux step l.length l

/-- `np.round` rounds half to even (banker's rounding). -/
def npRound (q : ℚ) : ℤ :=
  if q - ⌊q⌋ = 1/2 then (if 2 ∣ ⌊q⌋ then ⌊q⌋ else ⌊q⌋ + 1) else ⌊q + 1/2⌋

/-- The canonical stage set {-1 artifact, 0 W, 1 N1, 2 N2, 3 N3, 4 REM}. -/
def canonSet : List Int := [-1, 0, 1, 2, 3, 4]

/-- Index of the last character satisfying `q`, if any. -/
def lastIdxSat (q : Char → Bool) (cs : List Char) : Option Nat :=
  ((List.range cs.length).filter (fun i => q (cs.getD i ' '))).getLast?

/-- `os.path.splitext`: split at the last dot of the basename, provided the dot
comes after the last path separator and the basename has a non-dot character
before that dot (leading dots of the basename never start an extension). -/
def splitext (p : String) : String × String :=
  let cs := p.toList
  let fIdx : Nat :=
    match lastIdxSat (fun c => c = '/') cs with
    | none => 0
    | some k => k + 1
  match lastIdxSat (fun c => c = '.') cs with
  | none => (p, "")
  | some d =>
    if fIdx < d ∧ ((cs.drop fIdx).take (d - fIdx)).any (fun c => c ≠ '.') then
      (String.mk (cs.take d), String.mk (cs.drop d))
    else (p, "")

/-! ## FormatDispatcher: `load_sleepdataset` (lines 18-85)

Only the reader selection is modelled; the selected reader's own parse is a
separate call (`elan2array` below for ELAN).  The filesystem is the list of
existing file paths. -/

inductive Reader : Type
  | elan
  | brainvision
  | edf
  | micromed
deriving DecidableEq, Repr

inductive DispatchError : Type
  | assertionFailed
  | unsupportedFormat
deriving DecidableEq, Repr

/-- `load_sleepdataset(path)` reader selection (lines 52-85).  Note: the ELAN
sidecar test is `os.path.isfile(path + '.ent')` — the full filename with
`.ent` appended — while the BrainVision test is `os.path.isfile(file + '.vhdr')`
with `file` the stem from `splitext`. -/
def load_sleepdataset (fs : List String) (path : String) : Except DispatchError Reader :=
  if path ∈ fs then
    let ext := strLower (splitext path).2
    if ext = ".eeg" then
      if (path ++ ".ent") ∈ fs then .ok .elan
      else if ((splitext path).1 ++ ".vhdr") ∈ fs then .ok .brainvision
      else .error .unsupportedFormat
    else if ext = ".edf" then .ok .edf
    else if ext = ".trc" then .ok .micromed
    else .error .unsupportedFormat
  else .error .assertionFailed

/-! ## HypnogramLoader: `load_hypno`, `elan_hyp`, `txt_hyp`, `swap_hyp_values`
(lines 88-291) -/

inductive LoadError : Type
  | parseError      -- int conversion of a non-numeric line
  | zeroDivision    -- `npts / len(hypno)` with an empty hypnogram
  | indexError      -- `hypno[-1]` on an empty array
  | lengthMismatch  -- resampled length exceeds `npts` (raise at line 134)
  | assertFailed    -- missing file asserted inside `txt_hyp`
deriving DecidableEq, Repr

/-- The outcome of `load_hypno`: the assert on line 113 fails outside the
`try`, so a missing file is fatal; every error raised inside the `try` is
caught and turned into `None` (no hypnogram); otherwise a vector is returned. -/
inductive LoadResult : Type
  | fatal
  | noHypno
  | hypno (h : List Int)
deriving DecidableEq, Repr

/-- `hypno[hypno == -2] = -1` (line 173). -/
def elan_remap1 (v : Int) : Int := if v = -2 then -1 else v

/-- `hypno[hypno == 4] = 3` (line 174), applied after `elan_remap1`. -/
def elan_remap2 (v : Int) : Int := if v = 4 then 3 else v

/-- `hypno[hypno == 5] = 4` (line 175), applied after `elan_remap2`. -/
def elan_remap3 (v : Int) : Int := if v = 5 then 4 else v

/-- The three sequential masked assignments of lines 173-175, per element. -/
def elan_remap (v : Int) : Int := elan_remap3 (elan_remap2 (elan_remap1 v))

/-- Lines 177-183 and 226-231 (identical in both loaders): `rep =
int(np.floor(npts / len(hypno)))` then `np.repeat(hypno, rep)`.  An empty
hypnogram raises `ZeroDivisionError`. -/
def resample (hypno : List Int) (npts : Nat) : Except LoadError (List Int) :=
  if hypno.length = 0 then .error .zeroDivision
  else .ok (repeatEach (npts / hypno.length) hypno)

/-- `np.array(lines, dtype=int)`: every line must parse as an integer. -/
def parseLines (lines : List String) : Option (List Int) :=
  mapMOpt pyInt? lines

/-- `elan_hyp` (lines 146-183): skip the 4 header lines, parse the rest as
integers, remap, resample. -/
def elan_hyp (lines : List String) (npts : Nat) : Except LoadError (List Int) :=
  match parseLines (lines.drop 4) with
  | none => .error .parseError
  | some vals => resample (vals.map elan_remap) npts

/-- `s.lstrip('-').isdigit()` (line 219). -/
def digitLike (s : String) : Bool :=
  let t := s.toList.dropWhile (fun c => c = '-')
  !t.isEmpty && t.all (fun c => c.isDigit)

/-- One `label value` line of the description file (genfromtxt usecols 0, 1). -/
def parseDescLine (s : String) : Option (String × Int) :=
  match splitSpace s with
  | label :: v :: _ => (pyInt? v).map (fun n => (label, n))
  | _ => none

/-- `desc[label]` for the dict built on line 211: a later duplicate binding
overwrites an earlier one. -/
def descLookup (d : List (String × Int)) (label : String) : Option Int :=
  ((d.filter (fun p => p.1 = label)).getLast?).map (fun p => p.2)

/-- One masked assignment `if label in desc: hypno_s[hypno == desc[label]] = t`
of lines 264-289, applied to element value `v` with previous result `r`; the
mask tests the original `hypno`, so the update is per element. -/
def swapStep (d : List (String × Int)) (v : Int) (r : Int) (p : String × Int) : Int :=
  match descLookup d p.1 with
  | some c => if v = c then p.2 else r
  | none => r

/-- The labels and canonical targets of lines 264-289, in source order. -/
def stageTable : List (String × Int) :=
  [("Art", -1), ("Nde", -1), ("Mt", -1), ("W", 0), ("N1", 1),
   ("N2", 2), ("N3", 3), ("N4", 3), ("REM", 4)]

/-- `swap_hyp_values` per element: start from -1 (line 262) and apply the nine
masked assignments in order. -/
def swapVal (d : List (String × Int)) (v : Int) : Int :=
  stageTable.foldl (swapStep d v) (-1)

/-- `swap_hyp_values` (lines 235-291). -/
def swap_hyp_values (hypno : List Int) (d : List (String × Int)) : List Int :=
  hypno.map (swapVal d)

/-- `txt_hyp` (lines 186-232): load `<stem>_description.txt`, build the label
dict, read the hypnogram values (all-integer file, or digit-like lines of a
text file), swap to canonical codes and resample. -/
def txt_hyp (fs : String → Option (List String)) (path : String) (npts : Nat) :
    Except LoadError (List Int) :=
  match fs path with
  | none => .error .assertFailed
  | some lines =>
    match fs ((splitext path).1 ++ "_description.txt") with
    | none => .error .assertFailed
    | some hdr =>
      match mapMOpt parseDescLine hdr with
      | none => .error .parseError
      | some pairs =>
        match (if lines.all (fun s => (pyInt? s).isSome) then parseLines lines
               else parseLines (lines.filter digitLike)) with
        | none => .error .parseError
        | some vals => resample (swap_hyp_values vals pairs) npts

/-- Lines 129-137: pad a short hypnogram by repeating its last value
(`hypno[-1]` on an empty array raises `IndexError`), raise when it is too
long, return it unchanged when the length matches. -/
def complete_hypno (hypno : List Int) (npts : Nat) : Except LoadError (List Int) :=
  if hypno.length < npts then
    match hypno.getLast? with
    | none => .error .indexError
    | some v => .ok (hypno ++ List.replicate (npts - hypno.length) v)
  else if npts < hypno.length then .error .lengthMismatch
  else .ok hypno

/-- The bare `except` clause of lines 140-143: any error raised inside the
`try` block is caught and turned into `None`. -/
def catchToResult (e : Except LoadError (List Int)) : LoadResult :=
  match e with
  | .ok h => .hypno h
  | .error _ => .noHypno

/-- `load_hypno` (lines 88-143).  The extension is not lowercased here; an
unknown extension falls through the `if` and returns `None`; any error inside
the `try` is caught and also yields `None`. -/
def load_hypno (fs : String → Option (List String)) (path : String) (npts : Nat) :
    LoadResult :=
  match fs path with
  | none => .fatal
  | some lines =>
    if (splitext path).2 = ".hyp" then
      catchToResult ((elan_hyp lines npts).bind (fun h => complete_hypno h npts))
    else if (splitext path).2 = ".txt" ∨ (splitext path).2 = ".csv" then
      catchToResult ((txt_hyp fs path npts).bind (fun h => complete_hypno h npts))
    else .noHypno

/-! ## HypnogramWriter: `save_hypnoToElan` (lines 709-741) -/

/-- `hypno[hypno == 4] = 5` (line 731): canonical REM is written as 5. -/
def elanWriteMap (v : Int) : Int := if v = 4 then 5 else v

/-- `np.round(N / sfori)`: the epoch count the write stride is anchored to. -/
def elan_epochs (sfori : ℚ) (N : Nat) : ℤ := npRound ((N : ℚ) / sfori)

/-- `step = int(hypno.shape / np.round(N / sfori))` (line 732) for a positive
epoch count. -/
def elanStep (L : Nat) (sfori : ℚ) (N : Nat) : Nat :=
  L / (elan_epochs sfori N).toNat

/-- `np.round(q, 8)`: round half to even at 8 decimal places. -/
def npRound8 (q : ℚ) : ℚ := (npRound (q * 100000000) : ℚ) / 100000000

/-- The fixed 4-line header of lines 734-737 (its text is skipped on load). -/
def elanHypHdr (sfori : ℚ) (N : Nat) : List String :=
  ["time_base 1.000000",
   "sampling_period " ++ toString (npRound8 (1 / sfori)),
   "epoch_nb " ++ intToStr ⌊(N : ℚ) / sfori⌋,
   "epoch_list"]

/-- `save_hypnoToElan` (lines 709-741) as the list of text lines written.
`sf` is only cast on line 729 and otherwise unused.  A non-positive epoch
count or a zero stride makes the Python code raise (slice step 0 /
`int(inf)`), modelled as `none`. -/
def save_hypnoToElan (hypno : List Int) (sf : ℚ) (sfori : ℚ) (N : Nat) :
    Option (List String) :=
  if elan_epochs sfori N ≤ 0 then none
  else if elanStep hypno.length sfori N = 0 then none
  else some (elanHypHdr sfori N ++
    (strided (elanStep hypno.length sfori N) (hypno.map elanWriteMap)).map intToStr)

/-! ## DecimationPolicy and readers (lines 294-407, 603-706) -/

inductive ReadError : Type
  | unsupportedVersion
  | parseError
  | indexError
  | zeroDivision
  | invalidDownsampleRequest
deriving DecidableEq, Repr

/-- Modelled from the spec: `check_downsampling` lives in
`visbrain/utils/others.py`, which is not part of this repository snapshot;
per spec section 4.6 it validates that the requested target frequency is
positive and does not exceed `sf`, failing with `InvalidDownsampleRequest`
otherwise, and returns the adjusted actual output frequency
`sf / round(sf / target)`. -/
def check_downsampling (sf target : ℚ) : Except ReadError ℚ :=
  if target ≤ 0 ∨ sf < target then .error .invalidDownsampleRequest
  else .ok (sf / (npRound (sf / target) : ℚ))

/-- The downsampling block shared by the readers (lines 395-401, 592-598,
698-704): no request means stride 1; otherwise validate the request and take
`ds = int(np.round(sf / downsample))` on the adjusted frequency. -/
def get_downsample_factor (sf : ℚ) (downsample : Option ℚ) :
    Except ReadError (Option ℚ × ℤ) :=
  match downsample with
  | none => .ok (none, 1)
  | some t =>
    match check_downsampling sf t with
    | .error e => .error e
    | .ok t2 => .ok (some t2, npRound (sf / t2))

/-- The common reader output (sampling frequency, applied downsample
frequency, physical-unit sample buffer, channel names, original sample
count); the start time is not modelled, no claim concerns it. -/
structure Recording where
  sf : ℚ
  downsample : Option ℚ
  data : List (List ℚ)
  chan : List String
  N : Nat
deriving DecidableEq, Repr

/-- `elan2array` (lines 294-407).  Inputs: `pf` models Python `float()` on a
header line, `ent` is the decoded `.ent` header line list, `words` is the
`.eeg` file decoded at the version's word size (so `nb_bytes = nb_oct *
words.length` and the word size cancels out of `nb_samples`).  Fatal Python
errors (NameError on an unknown version, IndexError past the header end,
ValueError/ZeroDivisionError while parsing) are the `.error` cases. -/
def elan2array (pf : String → Option ℚ) (ent : List String) (words : List Int)
    (downsample : Option ℚ) : Except ReadError Recording :=
  match ent.get? 0 with
  | none => .error .indexError
  | some v0 =>
    if v0 ≠ "V2" ∧ v0 ≠ "V3" then .error .unsupportedVersion else
    match ent.get? 8 with
    | none => .error .indexError
    | some s8 =>
      match pf s8 with
      | none => .error .parseError
      | some period =>
        if period = 0 then .error .zeroDivision else
        let sf := 1 / period
        match ent.get? 9 with
        | none => .error .indexError
        | some s9 =>
          match pyInt? s9 with
          | none => .error .parseError
          | some nb_chan =>
            if nb_chan ≤ 0 then .error .indexError else
            let nbc := nb_chan.toNat
            let nb_chan_data := nbc - 2
            let chan := (ent.drop 10).take nb_chan_data
            let offset1 := 9 + 3 * nbc
            let offset2 := 9 + 4 * nbc
            let offset3 := 9 + 5 * nbc
            let offset4 := 9 + 6 * nbc
            match mapMOpt (fun i =>
              match ent.get? (offset1 + i + 1), ent.get? (offset2 + i + 1),
                    ent.get? (offset3 + i + 1), ent.get? (offset4 + i + 1) with
              | some a, some b, some c, some d =>
                match pf a, pf b, pf c, pf d with
                | some minAn, some maxAn, some minNum, some maxNum =>
                  if maxNum - minNum = 0 then none
                  else some ((maxAn - minAn) / (maxNum - minNum))
                | _, _, _, _ => none
              | _, _, _, _ => none) (List.range nbc) with
            | none => .error .parseError
            | some gains =>
              let nb_samples := words.length / nbc
              match get_downsample_factor sf downsample with
              | .error e => .error e
              | .ok (downsample2, dsInt) =>
                let ds := dsInt.toNat
                if ds = 0 then .error .indexError else
                let data := (List.range nb_chan_data).map (fun i =>
                  (strided ds ((List.range nb_samples).map
                      (fun s => ((words.getD (i + s * nbc) 0 : Int) : ℚ)))).map
                    (fun x => x * gains.getD i 0))
                .ok ⟨sf, downsample2, data, chan, nb_samples⟩

/-- Per-channel calibration record of the Micromed LABCOD zone
(lines 683-684). -/
structure MicroCalib where
  logical_min : ℤ
  logical_max : ℤ
  logical_ground : ℤ
  physical_min : ℤ
  physical_max : ℤ
deriving DecidableEq, Repr

/-- `gain = float(physical_max - physical_min) / float(logical_max -
logical_min + 1)` (lines 688-689). -/
def micromed_gain (c : MicroCalib) : ℚ :=
  ((c.physical_max - c.physical_min : ℤ) : ℚ) / ((c.logical_max - c.logical_min + 1 : ℤ) : ℚ)

/-- `data = (m_raw - logical_ground) * gain` (lines 692-693), one channel row. -/
def micromed_channel (c : MicroCalib) (row : List ℤ) : List ℚ :=
  row.map (fun r => ((r - c.logical_ground : ℤ) : ℚ) * micromed_gain c)

/-! ## Auxiliary instances and list lemmas -/

instance {ε α : Type} [DecidableEq ε] [DecidableEq α] : DecidableEq (Except ε α) := fun x y =>
  match x, y with
  | .ok a, .ok b => if h : a = b then .isTrue (by rw [h]) else .isFalse (by simp [h])
  | .error a, .error b => if h : a = b then .isTrue (by rw [h]) else .isFalse (by simp [h])
  | .ok _, .error _ => .isFalse (by simp)
  | .error _, .ok _ => .isFalse (by simp)

theorem getLast?_mem' {α : Type} {l : List α} {a : α} (h : l.getLast? = some a) : a ∈ l := by
  induction l with
  | nil => simp at h
  | cons x t ih =>
    cases t with
    | nil => simp_all
    | cons y u =>
      rw [List.getLast?_cons_cons] at h
      exact List.mem_cons_of_mem x (ih h)

theorem repeatEach_length {α : Type} (rep : Nat) (l : List α) :
    (repeatEach rep l).length = rep * l.length := by
  induction l with
  | nil => simp [repeatEach]
  | cons a t ih => simp [repeatEach, ih]; ring

theorem repeatEach_mem {α : Type} {rep : Nat} {l : List α} {v : α}
    (h : v ∈ repeatEach rep l) : v ∈ l := by
  induction l with
  | nil => simp [repeatEach] at h
  | cons a t ih =>
    simp only [repeatEach, List.mem_append] at h
    rcases h with h | h
    · exact (List.eq_of_mem_replicate h) ▸ List.mem_cons_self a t
    · exact List.mem_cons_of_mem a (ih h)

theorem repeatEach_get? {α : Type} {rep : Nat} (hrep : 1 ≤ rep) (l : List α) (i : Nat)
    (hi : i < rep * l.length) : (repeatEach rep l).get? i = l.get? (i / rep) := by
  induction l generalizing i with
  | nil => simp at hi
  | cons a t ih =>
    by_cases hcase : i < rep
    · have h1 : (repeatEach rep (a :: t)).get? i = some a := by
        show (List.replicate rep a ++ repeatEach rep t).get? i = some a
        rw [List.get?_append (by simpa using hcase)]
        simp [List.get?_eq_get, List.length_replicate, hcase, List.get_replicate]
      have h2 : i / rep = 0 := Nat.div_eq_of_lt hcase
      rw [h1, h2]; rfl
    · push_neg at hcase
      obtain ⟨j, rfl⟩ : ∃ j, i = rep + j := ⟨i - rep, by omega⟩
      have h1 : (repeatEach rep (a :: t)).get? (rep + j) = (repeatEach rep t).get? j := by
        show (List.replicate rep a ++ repeatEach rep t).get? (rep + j) = _
        rw [List.get?_append_right (by simp)]
        simp
      have hj : j < rep * t.length := by
        simp only [List.length_cons] at hi
        calc j < rep * (t.length + 1) - rep := by omega
        _ = rep * t.length := by ring_nf; omega
      rw [h1, ih j hj, Nat.add_comm rep j, Nat.add_div_right j (by omega)]
      rfl

theorem repeatEach_getLast? {α : Type} {rep : Nat} (hrep : 1 ≤ rep) (l : List α) :
    (repeatEach rep l).getLast? = l.getLast? := by
  induction l with
  | nil => rfl
  | cons a t ih =>
    show (List.replicate rep a ++ repeatEach rep t).getLast? = _
    cases t with
    | nil =>
      show (List.replicate rep a ++ []).getLast? = some a
      rw [List.append_nil]
      cases rep with
      | zero => omega
      | succ n =>
        rw [List.replicate_succ']
        simp
    | cons b u =>
      have hne : repeatEach rep (b :: u) ≠ [] := by
        have := repeatEach_length rep (b :: u)
        intro hnil
        rw [hnil] at this
        simp at this
        omega
      rw [List.getLast?_append_of_ne_nil _ hne, ih]
      rw [List.getLast?_cons_cons]

theorem stridedAux_get? {α : Type} {step : Nat} (hstep : 1 ≤ step) :
    ∀ (fuel : Nat) (l : List α), l.length ≤ fuel → ∀ k,
      (stridedAux step fuel l).get? k = l.get? (k * step) := by
  intro fuel
  induction fuel with
  | zero =>
    intro l hl k
    have : l = [] := List.eq_nil_of_length_eq_zero (by omega)
    subst this
    rfl
  | succ n ih =>
    intro l hl k
    cases l with
    | nil => rfl
    | cons a t =>
      have hl' : t.length ≤ n := by simpa using hl
      cases k with
      | zero => rw [Nat.zero_mul]; rfl
      | succ k =>
        show (stridedAux step n (t.drop (step - 1))).get? k = (a :: t).get? ((k + 1) * step)
        have hdl : (t.drop (step - 1)).length ≤ n := by
          rw [List.length_drop]
          omega
        rw [ih (t.drop (step - 1)) hdl k, List.get?_drop]
        have harith : (k + 1) * step = (step - 1 + k * step) + 1 := by
          rw [Nat.succ_mul]
          omega
        rw [harith]
        rfl

theorem strided_get? {α : Type} {step : Nat} (hstep : 1 ≤ step) (l : List α) (k : Nat) :
    (strided step l).get? k = l.get? (k * step) :=
  stridedAux_get? hstep l.length l le_rfl k

theorem stridedAux_mem {α : Type} {step : Nat} :
    ∀ {fuel : Nat} {l : List α} {v : α}, v ∈ stridedAux step fuel l → v ∈ l := by
  intro fuel
  induction fuel with
  | zero => intro l v h; simp [stridedAux] at h
  | succ n ih =>
    intro l v h
    cases l with
    | nil => simp [stridedAux] at h
    | cons a t =>
      rcases List.mem_cons.mp h with h | h
      · exact h ▸ List.mem_cons_self a t
      · exact List.mem_cons_of_mem a (List.drop_subset _ _ (ih h))

theorem strided_mem {α : Type} {step : Nat} {l : List α} {v : α}
    (h : v ∈ strided step l) : v ∈ l :=
  stridedAux_mem h

theorem strided_map {α β : Type} {step : Nat} (hstep : 1 ≤ step) (f : α → β) (l : List α) :
    strided step (l.map f) = (strided step l).map f := by
  apply List.ext_get?
  intro k
  have hlen : (l.map f).length = l.length := List.length_map l f
  rw [List.get?_map, strided_get? hstep, strided_get? hstep, List.get?_map]

theorem lt_ceil_div_iff {L step k : Nat} (hstep : 1 ≤ step) (hL : 1 ≤ L) :
    k < (L + step - 1) / step ↔ k * step < L := by
  rw [show L + step - 1 = (L - 1) + step by omega, Nat.add_div_right _ (by omega)]
  constructor
  · intro hk
    have h1 : k ≤ (L - 1) / step := by omega
    have h2 := (Nat.le_div_iff_mul_le (by omega : 0 < step)).mp h1
    omega
  · intro hk
    have h1 : k * step ≤ L - 1 := by omega
    have h2 := (Nat.le_div_iff_mul_le (by omega : 0 < step)).mpr h1
    omega

theorem strided_length {α : Type} {step : Nat} (hstep : 1 ≤ step) (l : List α) :
    (strided step l).length = (l.length + step - 1) / step := by
  rcases Nat.eq_zero_or_pos l.length with h0 | hpos
  · have hnil : l = [] := List.eq_nil_of_length_eq_zero h0
    subst hnil
    show (stridedAux step 0 ([] : List α)).length = (0 + step - 1) / step
    have : (step - 1) / step = 0 := Nat.div_eq_of_lt (by omega)
    simpa using this.symm
  · set W := (l.length + step - 1) / step with hW
    have hnone : (strided step l).get? W = none := by
      rw [strided_get? hstep, List.get?_eq_none]
      by_contra hcon
      push_neg at hcon
      have := (lt_ceil_div_iff hstep hpos).mpr hcon
      omega
    have hlen_le : (strided step l).length ≤ W := List.get?_eq_none.mp hnone
    have hposW : 0 < W := by
      rw [hW]
      have : 0 * step < l.length := by omega
      exact (lt_ceil_div_iff hstep hpos).mpr this
    have hsome : (strided step l).get? (W - 1) ≠ none := by
      rw [strided_get? hstep, Ne, List.get?_eq_none]
      push_neg
      have : W - 1 < W := by omega
      exact (lt_ceil_div_iff hstep hpos).mp (by omega)
    have : W - 1 < (strided step l).length := by
      by_contra hcon
      push_neg at hcon
      exact hsome (List.get?_eq_none.mpr hcon)
    omega

theorem complete_hypno_ok_length {hypno out : List Int} {npts : Nat}
    (h : complete_hypno hypno npts = .ok out) : out.length = npts := by
  unfold complete_hypno at h
  split at h
  · rename_i hlt
    split at h
    · exact absurd h (by simp)
    · rename_i v hlast
      have := Except.ok.inj h
      subst this
      simp [List.length_append, List.length_replicate]
      omega
  · split at h
    · exact absurd h (by simp)
    · rename_i h1 h2
      have := Except.ok.inj h
      subst this
      omega

theorem complete_hypno_ok_mem {hypno out : List Int} {npts : Nat}
    (h : complete_hypno hypno npts = .ok out) : ∀ v ∈ out, v ∈ hypno := by
  unfold complete_hypno at h
  split at h
  · split at h
    · exact absurd h (by simp)
    · rename_i v hlast
      have := Except.ok.inj h
      subst this
      intro w hw
      rcases List.mem_append.mp hw with hw | hw
      · exact hw
      · exact (List.eq_of_mem_replicate hw) ▸ getLast?_mem' hlast
  · split at h
    · exact absurd h (by simp)
    · have := Except.ok.inj h
      subst this
      exact fun v hv => hv

theorem resample_ok {hypno out : List Int} {npts : Nat}
    (h : resample hypno npts = .ok out) :
    hypno.length ≠ 0 ∧ out = repeatEach (npts / hypno.length) hypno := by
  unfold resample at h
  split at h
  · exact absurd h (by simp)
  · exact ⟨by assumption, (Except.ok.inj h).symm⟩

theorem mapMOpt_some_mem {α β : Type} {f : α → Option β} :
    ∀ {l : List α} {out : List β}, mapMOpt f l = some out →
      ∀ b ∈ out, ∃ a ∈ l, f a = some b := by
  intro l
  induction l with
  | nil =>
    intro out h b hb
    have : out = [] := (Option.some.inj h).symm
    subst this
    simp at hb
  | cons a t ih =>
    intro out h b hb
    unfold mapMOpt at h
    cases hfa : f a with
    | none => rw [hfa] at h; simp at h
    | some v =>
      rw [hfa] at h
      cases hft : mapMOpt f t with
      | none => rw [hft] at h; simp at h
      | some vs =>
        rw [hft] at h
        have : v :: vs = out := Option.some.inj h
        subst this
        rcases List.mem_cons.mp hb with hb | hb
        · exact ⟨a, List.mem_cons_self a t, hb ▸ hfa⟩
        · obtain ⟨a2, ha2, hfa2⟩ := ih hft b hb
          exact ⟨a2, List.mem_cons_of_mem a ha2, hfa2⟩

theorem mapMOpt_some_isSome {α β : Type} {f : α → Option β} :
    ∀ {l : List α} {out : List β}, mapMOpt f l = some out → ∀ a ∈ l, (f a).isSome := by
  intro l
  induction l with
  | nil => intro out h a ha; simp at ha
  | cons x t ih =>
    intro out h a ha
    unfold mapMOpt at h
    cases hfx : f x with
    | none => rw [hfx] at h; simp at h
    | some v =>
      rw [hfx] at h
      cases hft : mapMOpt f t with
      | none => rw [hft] at h; simp at h
      | some vs =>
        rcases List.mem_cons.mp ha with ha | ha
        · rw [ha, hfx]; rfl
        · exact ih hft a ha

theorem mapMOpt_map_roundtrip {α β : Type} {f : α → β} {g : β → Option α} :
    ∀ {l : List α}, (∀ a ∈ l, g (f a) = some a) → mapMOpt g (l.map f) = some l := by
  intro l
  induction l with
  | nil => intro _; rfl
  | cons a t ih =>
    intro h
    rw [List.map_cons]
    unfold mapMOpt
    rw [h a (List.mem_cons_self a t), ih (fun a ha => h a (List.mem_cons_of_mem _ ha))]

theorem mapMOpt_length {α β : Type} {f : α → Option β} :
    ∀ {l : List α} {out : List β}, mapMOpt f l = some out → out.length = l.length := by
  intro l
  induction l with
  | nil =>
    intro out h
    have : out = [] := (Option.some.inj h).symm
    subst this
    rfl
  | cons x t ih =>
    intro out h
    unfold mapMOpt at h
    cases hfx : f x with
    | none => rw [hfx] at h; simp at h
    | some v =>
      rw [hfx] at h
      cases hft : mapMOpt f t with
      | none => rw [hft] at h; simp at h
      | some vs =>
        rw [hft] at h
        have : v :: vs = out := Option.some.inj h
        subst this
        simpa using ih hft

theorem npRound_intCast (k : ℤ) : npRound (k : ℚ) = k := by
  unfold npRound
  rw [Int.floor_intCast]
  have h1 : (k : ℚ) - k = 0 := by ring
  rw [h1]
  have h2 : (0 : ℚ) ≠ 1 / 2 := by norm_num
  rw [if_neg h2, Int.floor_int_add]
  have h3 : ⌊(1 / 2 : ℚ)⌋ = 0 := by norm_num
  omega

theorem one_le_npRound {q : ℚ} (h : 1 ≤ q) : 1 ≤ npRound q := by
  unfold npRound
  have hfl : 1 ≤ ⌊q⌋ := by exact_mod_cast Int.le_floor.mpr (by exact_mod_cast h)
  split
  · split <;> omega
  · have : 1 ≤ ⌊q + 1 / 2⌋ := by
      apply Int.le_floor.mpr
      push_cast
      linarith
    omega

theorem except_bind_ok {ε α β : Type} {e : Except ε α} {f : α → Except ε β} {b : β}
    (h : e.bind f = .ok b) : ∃ a, e = .ok a ∧ f a = .ok b := by
  cases e with
  | error e => exact absurd h (by simp [Except.bind])
  | ok a => exact ⟨a, rfl, h⟩

theorem catchToResult_hypno {e : Except LoadError (List Int)} {l : List Int}
    (h : catchToResult e = .hypno l) : e = .ok l := by
  cases e with
  | ok a =>
    have : a = l := LoadResult.hypno.inj h
    rw [this]
  | error er => exact absurd h (by simp [catchToResult])

theorem complete_hypno_pad {hypno : List Int} {npts : Nat} {v : Int}
    (hlt : hypno.length < npts) (hlast : hypno.getLast? = some v) :
    complete_hypno hypno npts = .ok (hypno ++ List.replicate (npts - hypno.length) v) := by
  unfold complete_hypno
  rw [if_pos hlt, hlast]

theorem complete_hypno_exact {hypno : List Int} {npts : Nat} (h : hypno.length = npts) :
    complete_hypno hypno npts = .ok hypno := by
  unfold complete_hypno
  rw [if_neg (by omega), if_neg (by omega)]

theorem strided_one {α : Type} (l : List α) : strided 1 l = l := by
  apply List.ext_get?
  intro k
  rw [strided_get? le_rfl, Nat.mul_one]

theorem foldl_swapStep_of_no_match {d : List (String × Int)} {v : Int} :
    ∀ {T : List (String × Int)} {a : Int},
      (∀ p ∈ T, descLookup d p.1 ≠ some v) → T.foldl (swapStep d v) a = a := by
  intro T
  induction T with
  | nil => intro a _; rfl
  | cons p T ih =>
    intro a h
    rw [List.foldl_cons]
    have hstep : swapStep d v a p = a := by
      unfold swapStep
      cases hl : descLookup d p.1 with
      | none => rfl
      | some c =>
        show (if v = c then p.2 else a) = a
        rw [if_neg]
        intro hv
        exact h p (List.mem_cons_self _ _) (by rw [hl, hv])
    rw [hstep]
    exact ih (fun q hq => h q (List.mem_cons_of_mem _ hq))

theorem foldl_swapStep_of_match {d : List (String × Int)} {v t : Int} :
    ∀ {T : List (String × Int)},
      (∀ p ∈ T, descLookup d p.1 = some v → p.2 = t) →
      (∃ p ∈ T, descLookup d p.1 = some v) →
      ∀ a, T.foldl (swapStep d v) a = t := by
  intro T
  induction T with
  | nil => intro _ hex a; simp at hex
  | cons p T ih =>
    intro hall hex a
    rw [List.foldl_cons]
    by_cases hT : ∃ q ∈ T, descLookup d q.1 = some v
    · exact ih (fun q hq => hall q (List.mem_cons_of_mem _ hq)) hT _
    · push_neg at hT
      have hmatchp : descLookup d p.1 = some v := by
        rcases hex with ⟨q, hq, hmq⟩
        rcases List.mem_cons.mp hq with hq' | hq'
        · exact hq' ▸ hmq
        · exact absurd hmq (hT q hq')
      have hstep : swapStep d v a p = t := by
        unfold swapStep
        rw [hmatchp]
        show (if v = v then p.2 else a) = t
        rw [if_pos rfl]
        exact hall p (List.mem_cons_self _ _) hmatchp
      rw [hstep]
      exact foldl_swapStep_of_no_match hT

theorem foldl_swapStep_result {d : List (String × Int)} {v : Int} :
    ∀ {T : List (String × Int)} {a : Int},
      T.foldl (swapStep d v) a = a ∨ ∃ p ∈ T, T.foldl (swapStep d v) a = p.2 := by
  intro T
  induction T with
  | nil => intro a; left; rfl
  | cons p T ih =>
    intro a
    rw [List.foldl_cons]
    rcases @ih (swapStep d v a p) with h | ⟨q, hq, hres⟩
    · rw [h]
      unfold swapStep
      cases hl : descLookup d p.1 with
      | none => left; rfl
      | some c =>
        by_cases hv : v = c
        · right
          refine ⟨p, List.mem_cons_self _ _, ?_⟩
          show (if v = c then p.2 else a) = p.2
          rw [if_pos hv]
        · left
          show (if v = c then p.2 else a) = a
          rw [if_neg hv]
    · right
      exact ⟨q, List.mem_cons_of_mem _ hq, hres⟩

theorem swapVal_mem_canonSet (d : List (String × Int)) (v : Int) :
    swapVal d v ∈ canonSet := by
  unfold swapVal
  rcases @foldl_swapStep_result d v stageTable (-1) with h | ⟨p, hp, hres⟩
  · rw [h]; decide
  · rw [hres]
    have : ∀ p ∈ stageTable, p.2 ∈ canonSet := by decide
    exact this p hp

/-- The resampling pipeline a raw stage sequence goes through inside
`load_hypno`: the trailing fixed-ratio expansion of `elan_hyp`/`txt_hyp`
(lines 177-183, 226-231) followed by the completion of lines 129-137. -/
def loaderResample (raw : List Int) (npts : Nat) : Except LoadError (List Int) :=
  (resample raw npts).bind (fun h => complete_hypno h npts)

/-- C1: if the resampled stage sequence is longer than `npts`, the loader
raises the length-mismatch error (lines 133-136) rather than returning a
truncated vector, and any hypnogram `load_hypno` does return has length
exactly `npts`. -/
theorem load_hypno_length_mismatch (hypno : List Int) (npts : Nat)
    (h : npts < hypno.length) :
    complete_hypno hypno npts = Except.error LoadError.lengthMismatch ∧
    (∀ (fs : String → Option (List String)) (path : String) (n : Nat) (l : List Int),
      load_hypno fs path n = LoadResult.hypno l → l.length = n) := by
  constructor
  · unfold complete_hypno
    rw [if_neg (by omega), if_pos h]
  · intro fs path n l hl
    unfold load_hypno at hl
    split at hl
    · exact absurd hl (by simp)
    · split at hl
      · obtain ⟨mid, _, hcomp⟩ := except_bind_ok (catchToResult_hypno hl)
        exact complete_hypno_ok_length hcomp
      · split at hl
        · obtain ⟨mid, _, hcomp⟩ := except_bind_ok (catchToResult_hypno hl)
          exact complete_hypno_ok_length hcomp
        · exact absurd hl (by simp)

/-- Witness for C1 at the concrete overlong hypnogram `[0, 0]` with
`npts = 1`. -/
theorem load_hypno_length_mismatch_inst :
    complete_hypno [0, 0] 1 = Except.error LoadError.lengthMismatch :=
  (load_hypno_length_mismatch [0, 0] 1 (by decide)).1

/-- C5: the ELAN `.hyp` remapping sends -2 to -1, 4 to 3, 5 to 4, leaves
0-3 unchanged, maps the raw codes [-2,4,5,0,1,2,3] to [-1,3,4,0,1,2,3],
and `elan_hyp` ignores the content of the first 4 header lines. -/
theorem elan_remap_spec :
    elan_remap (-2) = -1 ∧ elan_remap 4 = 3 ∧ elan_remap 5 = 4 ∧
    (∀ v : Int, 0 ≤ v → v ≤ 3 → elan_remap v = v) ∧
    ([-2, 4, 5, 0, 1, 2, 3] : List Int).map elan_remap = [-1, 3, 4, 0, 1, 2, 3] ∧
    (∀ (h1 h2 rest : List String) (npts : Nat), h1.length = 4 → h2.length = 4 →
      elan_hyp (h1 ++ rest) npts = elan_hyp (h2 ++ rest) npts) := by
  refine ⟨by decide, by decide, by decide, ?_, by decide, ?_⟩
  · intro v h0 h3
    unfold elan_remap elan_remap1 elan_remap2 elan_remap3
    split_ifs <;> omega
  · intro h1 h2 rest npts hh1 hh2
    unfold elan_hyp
    have e1 : (h1 ++ rest).drop 4 = rest := by rw [← hh1]; exact List.drop_left h1 rest
    have e2 : (h2 ++ rest).drop 4 = rest := by rw [← hh2]; exact List.drop_left h2 rest
    rw [e1, e2]

/-- Witness for C5: pass-through of the in-range code 2, at concrete header
lists. -/
theorem elan_remap_spec_inst :
    elan_remap 2 = 2 ∧
    elan_hyp (["a", "b", "c", "d"] ++ ["2"]) 1 = elan_hyp (["w", "x", "y", "z"] ++ ["2"]) 1 :=
  ⟨elan_remap_spec.2.2.2.1 2 (by decide) (by decide),
   elan_remap_spec.2.2.2.2.2 ["a", "b", "c", "d"] ["w", "x", "y", "z"] ["2"] 1 rfl rfl⟩

/-- C6: for a non-empty raw sequence that is no longer than `npts`, the
loader repeats each element `rep = npts / len` times and pads with the final
value to exactly `npts`; on `[0,1,2,4]` with `npts = 8` it yields
`[0,0,1,1,2,2,4,4]`, and with `npts = 9` one more trailing 4. -/
theorem loader_resample_spec (raw : List Int) (npts : Nat) (hne : raw ≠ [])
    (hle : raw.length ≤ npts) :
    loaderResample raw npts =
      .ok (repeatEach (npts / raw.length) raw ++
           List.replicate (npts - (npts / raw.length) * raw.length) (raw.getLast hne)) ∧
    loaderResample [0, 1, 2, 4] 8 = .ok [0, 0, 1, 1, 2, 2, 4, 4] ∧
    loaderResample [0, 1, 2, 4] 9 = .ok [0, 0, 1, 1, 2, 2, 4, 4, 4] := by
  refine ⟨?_, by decide, by decide⟩
  have hL : 0 < raw.length := List.length_pos.mpr hne
  have hrep : 1 ≤ npts / raw.length := (Nat.one_le_div_iff hL).mpr hle
  have hlen : (repeatEach (npts / raw.length) raw).length = (npts / raw.length) * raw.length :=
    repeatEach_length _ _
  have hn_le : (npts / raw.length) * raw.length ≤ npts := Nat.div_mul_le_self _ _
  show (resample raw npts).bind (fun h => complete_hypno h npts) = _
  unfold resample
  rw [if_neg (by omega)]
  show complete_hypno (repeatEach (npts / raw.length) raw) npts = _
  rcases Nat.lt_or_ge ((npts / raw.length) * raw.length) npts with hlt | hge
  · have hgl : (repeatEach (npts / raw.length) raw).getLast? = some (raw.getLast hne) := by
      rw [repeatEach_getLast? hrep, List.getLast?_eq_getLast raw hne]
    rw [complete_hypno_pad (by omega) hgl, hlen]
  · rw [complete_hypno_exact (by omega)]
    have h0 : npts - (npts / raw.length) * raw.length = 0 := by omega
    rw [h0, List.replicate_zero, List.append_nil]

/-- Witness for C6 at the claim's own concrete example. -/
theorem loader_resample_spec_inst :
    loaderResample [0, 1, 2, 4] 9 =
      .ok (repeatEach (9 / 4) [0, 1, 2, 4] ++
           List.replicate (9 - (9 / 4) * 4) (([0, 1, 2, 4] : List Int).getLast (by decide))) :=
  (loader_resample_spec [0, 1, 2, 4] 9 (by decide) (by decide)).1

/-- C7 (amended): when the raw codes the description assigns to the
recognised labels are unambiguous at `v`, `swap_hyp_values` maps `v` to the
fixed canonical target of its label (Art/Nde/Mt to -1, W to 0, N1 to 1, N2
to 2, N3 and N4 to 3, REM to 4), and any value matching no described label
maps to -1; with colliding codes the last assignment in source order wins. -/
theorem swap_canonical_targets (d : List (String × Int)) (v : Int) :
    ((∀ p ∈ stageTable, descLookup d p.1 ≠ some v) → swapVal d v = -1) ∧
    (∀ t : Int, (∃ p ∈ stageTable, descLookup d p.1 = some v ∧ p.2 = t) →
      (∀ p ∈ stageTable, descLookup d p.1 = some v → p.2 = t) →
      swapVal d v = t) := by
  constructor
  · intro h
    exact foldl_swapStep_of_no_match h
  · intro t hex hall
    obtain ⟨p, hp, hm, _⟩ := hex
    exact foldl_swapStep_of_match hall ⟨p, hp, hm⟩ _

/-- Witness for C7 at a concrete unambiguous description. -/
theorem swap_canonical_targets_inst :
    swapVal [("W", 0), ("N1", 1)] 9 = -1 ∧ swapVal [("W", 0), ("N1", 1)] 0 = 0 :=
  ⟨(swap_canonical_targets [("W", 0), ("N1", 1)] 9).1 (by decide),
   (swap_canonical_targets [("W", 0), ("N1", 1)] 0).2 0 (by decide) (by decide)⟩

/-- Counterexample for C7 as stated: with a description assigning the same
raw code 0 to both W and REM, the value matching W's code is not mapped to
W's target 0 — the later REM assignment wins and yields 4. -/
theorem swap_collision_cex :
    descLookup [("W", 0), ("REM", 0)] "W" = some 0 ∧
    ("W", (0 : Int)) ∈ stageTable ∧
    swapVal [("W", 0), ("REM", 0)] 0 = 4 ∧ (4 : Int) ≠ 0 := by decide

/-- C9: the Micromed per-channel gain is
`(physical_max - physical_min) / (logical_max - logical_min + 1)`, each raw
sample maps to `(raw - logical_ground) * gain`; for the documented
calibration the gain is 1000/4096 and raw 0 with ground 0 maps to 0. -/
theorem micromed_gain_spec :
    micromed_gain ⟨-2048, 2047, 0, -500, 500⟩ = 1000 / 4096 ∧
    micromed_channel ⟨-2048, 2047, 0, -500, 500⟩ [0] = [0] ∧
    (∀ (c : MicroCalib) (row : List ℤ) (i : Nat),
      (micromed_channel c row).get? i =
        (row.get? i).map (fun r => ((r - c.logical_ground : ℤ) : ℚ) *
          (((c.physical_max - c.physical_min : ℤ) : ℚ) /
           ((c.logical_max - c.logical_min + 1 : ℤ) : ℚ)))) := by
  refine ⟨by with_unfolding_all decide, by with_unfolding_all decide, ?_⟩
  intro c row i
  unfold micromed_channel micromed_gain
  rw [List.get?_map]

/-- C10: no requested target gives stride 1 and an unchanged buffer;
a requested target is validated (positive, at most `sf`), the stride is
`round(sf / target)` and the returned actual frequency is `sf / stride`;
concretely 500 and 100 give stride 5 at 100 Hz and 600 is rejected. -/
theorem decimation_policy (sf : ℚ) :
    get_downsample_factor sf none = .ok (none, 1) ∧
    (∀ l : List ℚ, strided 1 l = l) ∧
    (∀ t : ℚ, t ≤ 0 ∨ sf < t →
      get_downsample_factor sf (some t) = .error .invalidDownsampleRequest) ∧
    (∀ t : ℚ, 0 < t → t ≤ sf →
      get_downsample_factor sf (some t) =
        .ok (some (sf / (npRound (sf / t) : ℚ)), npRound (sf / t))) ∧
    get_downsample_factor 500 (some 100) = .ok (some 100, 5) ∧
    get_downsample_factor 500 (some 600) = .error .invalidDownsampleRequest := by
  refine ⟨rfl, strided_one, ?_, ?_, by with_unfolding_all decide,
    by with_unfolding_all decide⟩
  · intro t ht
    have hcd : check_downsampling sf t = .error .invalidDownsampleRequest := by
      unfold check_downsampling
      rw [if_pos ht]
    show (match check_downsampling sf t with
          | Except.error e => Except.error e
          | Except.ok t2 => Except.ok (some t2, npRound (sf / t2))) =
        Except.error ReadError.invalidDownsampleRequest
    rw [hcd]
  · intro t ht0 htsf
    have hcd : check_downsampling sf t = .ok (sf / (npRound (sf / t) : ℚ)) := by
      unfold check_downsampling
      rw [if_neg (by push_neg; constructor <;> linarith)]
    show (match check_downsampling sf t with
          | Except.error e => Except.error e
          | Except.ok t2 => Except.ok (some t2, npRound (sf / t2))) =
        Except.ok (some (sf / (npRound (sf / t) : ℚ)), npRound (sf / t))
    rw [hcd]
    have hsf0 : sf ≠ 0 := by linarith
    have hq : (1 : ℚ) ≤ sf / t := (one_le_div ht0).mpr htsf
    have hk : 1 ≤ npRound (sf / t) := one_le_npRound hq
    have hk0 : (npRound (sf / t) : ℚ) ≠ 0 := by
      exact_mod_cast (by omega : npRound (sf / t) ≠ 0)
    have hdd : sf / (sf / (npRound (sf / t) : ℚ)) = (npRound (sf / t) : ℚ) := by
      field_simp
    show Except.ok (some (sf / (npRound (sf / t) : ℚ)),
          npRound (sf / (sf / (npRound (sf / t) : ℚ)))) =
        Except.ok (some (sf / (npRound (sf / t) : ℚ)), npRound (sf / t))
    rw [hdd, npRound_intCast]

/-- Witness for C10 at the concrete frequencies of the claim. -/
theorem decimation_policy_inst :
    get_downsample_factor 500 (some 100) = .ok (some 100, 5) :=
  (decimation_policy 500).2.2.2.2.1

/-- Counterexample for C2 as stated: with files `a.eeg` and `a.ent` (a
co-located sidecar with the same stem and extension `.ent`), the dispatcher
does not select ELAN — it tests `path + '.ent'` (`a.eeg.ent`, line 62) — and
fails instead. -/
theorem dispatch_ent_sidecar_cex :
    ((splitext "a.eeg").1 ++ ".ent") ∈ ["a.eeg", "a.ent"] ∧
    load_sleepdataset ["a.eeg", "a.ent"] "a.eeg" ≠ .ok .elan ∧
    load_sleepdataset ["a.eeg", "a.ent"] "a.eeg" = .error .unsupportedFormat := by decide

/-- C2 (amended): for an existing `.eeg` path the dispatcher selects ELAN
exactly when the file named by appending `.ent` to the full path exists,
BrainVision exactly when that file is absent and the same-stem `.vhdr`
exists, and fails otherwise; `.edf` and `.trc` go to their readers and any
other extension fails, never falling back silently. -/
theorem dispatch_selection (fs : List String) (path : String) (hin : path ∈ fs) :
    (strLower (splitext path).2 = ".eeg" →
      (load_sleepdataset fs path = .ok .elan ↔ (path ++ ".ent") ∈ fs) ∧
      (load_sleepdataset fs path = .ok .brainvision ↔
        ((path ++ ".ent") ∉ fs ∧ ((splitext path).1 ++ ".vhdr") ∈ fs)) ∧
      ((path ++ ".ent") ∉ fs → ((splitext path).1 ++ ".vhdr") ∉ fs →
        load_sleepdataset fs path = .error .unsupportedFormat)) ∧
    (strLower (splitext path).2 = ".edf" → load_sleepdataset fs path = .ok .edf) ∧
    (strLower (splitext path).2 = ".trc" → load_sleepdataset fs path = .ok .micromed) ∧
    (strLower (splitext path).2 ∉ [".eeg", ".edf", ".trc"] →
      load_sleepdataset fs path = .error .unsupportedFormat) := by
  unfold load_sleepdataset
  rw [if_pos hin]
  refine ⟨?_, ?_, ?_, ?_⟩
  · intro heeg
    rw [if_pos heeg]
    by_cases hent : (path ++ ".ent") ∈ fs
    · simp [hent]
    · by_cases hvhdr : ((splitext path).1 ++ ".vhdr") ∈ fs <;> simp [hent, hvhdr]
  · intro hedf
    have hne : strLower (splitext path).2 ≠ ".eeg" := by rw [hedf]; decide
    rw [if_neg hne, if_pos hedf]
  · intro htrc
    have hne1 : strLower (splitext path).2 ≠ ".eeg" := by rw [htrc]; decide
    have hne2 : strLower (splitext path).2 ≠ ".edf" := by rw [htrc]; decide
    rw [if_neg hne1, if_neg hne2, if_pos htrc]
  · intro hnot
    simp only [List.mem_cons, List.mem_singleton] at hnot
    push_neg at hnot
    rw [if_neg hnot.1, if_neg hnot.2.1, if_neg hnot.2.2.1]

/-- Witness for C2 at concrete filesystems for each branch. -/
theorem dispatch_selection_inst :
    load_sleepdataset ["a.eeg", "a.eeg.ent"] "a.eeg" = .ok .elan ∧
    load_sleepdataset ["a.eeg", "a.vhdr"] "a.eeg" = .ok .brainvision ∧
    load_sleepdataset ["a.xyz"] "a.xyz" = .error .unsupportedFormat :=
  ⟨((dispatch_selection ["a.eeg", "a.eeg.ent"] "a.eeg" (by decide)).1 (by decide)).1.mpr
      (by decide),
   ((dispatch_selection ["a.eeg", "a.vhdr"] "a.eeg" (by decide)).1 (by decide)).2.1.mpr
      (by decide),
   (dispatch_selection ["a.xyz"] "a.xyz" (by decide)).2.2.2 (by decide)⟩

theorem elan_remap_range (u : Int) (h1 : -2 ≤ u) (h2 : u ≤ 5) :
    elan_remap u ∈ canonSet := by
  unfold elan_remap elan_remap1 elan_remap2 elan_remap3
  simp only [canonSet, List.mem_cons, List.not_mem_nil, or_false]
  split_ifs <;> omega

theorem txt_hyp_ok_canon {fs : String → Option (List String)} {path : String}
    {npts : Nat} {mid : List Int} (h : txt_hyp fs path npts = .ok mid) :
    ∀ v ∈ mid, v ∈ canonSet := by
  unfold txt_hyp at h
  split at h
  · exact absurd h (by simp)
  · split at h
    · exact absurd h (by simp)
    · split at h
      · exact absurd h (by simp)
      · rename_i pairs hpairs
        split at h
        · exact absurd h (by simp)
        · rename_i vals hvals
          obtain ⟨_, hout⟩ := resample_ok h
          intro v hv
          rw [hout] at hv
          have hmem := repeatEach_mem hv
          unfold swap_hyp_values at hmem
          obtain ⟨u, _, hu⟩ := List.mem_map.mp hmem
          exact hu ▸ swapVal_mem_canonSet pairs u

/-- Counterexample for C3 as stated: a `.hyp` file whose data line holds the
out-of-range code 7 loads to a hypnogram containing 7, outside the canonical
set — lines 173-175 only rewrite -2, 4 and 5 and pass every other value
through. -/
theorem hyp_out_of_range_cex :
    load_hypno (fun p => if p = "a.hyp" then some ["h", "h", "h", "h", "7"] else none)
        "a.hyp" 1 = .hypno [7] ∧ (7 : Int) ∉ canonSet := by decide

/-- C3 (amended): every element of a hypnogram returned through the
`.txt`/`.csv` path lies in the canonical set {-1,0,1,2,3,4}; through the
`.hyp` path this holds provided every parsed raw code lies in the ELAN range
{-2,...,5} — raw codes outside that range are passed through unchanged. -/
theorem hypno_values_canonical :
    (∀ (fs : String → Option (List String)) (path : String) (npts : Nat) (l : List Int),
      load_hypno fs path npts = .hypno l → (splitext path).2 ≠ ".hyp" →
      ∀ v ∈ l, v ∈ canonSet) ∧
    (∀ (lines : List String) (npts : Nat) (l : List Int),
      (∀ s ∈ lines.drop 4, ∀ w : Int, pyInt? s = some w → -2 ≤ w ∧ w ≤ 5) →
      (elan_hyp lines npts).bind (fun h => complete_hypno h npts) = .ok l →
      ∀ v ∈ l, v ∈ canonSet) := by
  constructor
  · intro fs path npts l hl hext
    unfold load_hypno at hl
    split at hl
    · exact absurd hl (by simp)
    · split at hl
      · exact absurd (by assumption) hext
      · split at hl
        · obtain ⟨mid, htxt, hcomp⟩ := except_bind_ok (catchToResult_hypno hl)
          intro v hv
          exact txt_hyp_ok_canon htxt v (complete_hypno_ok_mem hcomp v hv)
        · exact absurd hl (by simp)
  · intro lines npts l hrange hok
    obtain ⟨mid, helan, hcomp⟩ := except_bind_ok hok
    unfold elan_hyp at helan
    split at helan
    · exact absurd helan (by simp)
    · rename_i vals hvals
      obtain ⟨_, hout⟩ := resample_ok helan
      intro v hv
      have hvmid := complete_hypno_ok_mem hcomp v hv
      rw [hout] at hvmid
      have hmem := repeatEach_mem hvmid
      obtain ⟨u, hu_mem, hu⟩ := List.mem_map.mp hmem
      obtain ⟨s, hs_mem, hs⟩ := mapMOpt_some_mem hvals u hu_mem
      obtain ⟨hw1, hw2⟩ := hrange s hs_mem u hs
      exact hu ▸ elan_remap_range u hw1 hw2

/-- Witness for C3 at a concrete `.txt` hypnogram with its description
sidecar. -/
theorem hypno_values_canonical_inst : (0 : Int) ∈ canonSet :=
  hypno_values_canonical.1
    (fun p => if p = "b.txt" then some ["0", "0"]
      else if p = "b_description.txt" then some ["W 0"] else none)
    "b.txt" 2 [0, 0] (by decide) (by decide) 0 (by decide)

theorem elanWriteMap_disk (u : Int) (h : u ∈ canonSet) :
    elanWriteMap u ∈ ([-1, 0, 1, 2, 3, 5] : List Int) := by
  fin_cases h <;> decide

theorem pyInt_intToStr_disk (v : Int) (h : v ∈ ([-1, 0, 1, 2, 3, 5] : List Int)) :
    pyInt? (intToStr v) = some v := by
  fin_cases h <;> decide

theorem elan_remap_elanWriteMap (u : Int) (h : u ∈ canonSet) :
    elan_remap (elanWriteMap u) = u := by
  fin_cases h <;> decide

theorem repeatEach_strided {l : List Int} {step : Nat} (hstep : 1 ≤ step)
    (hdvd : step ∣ l.length)
    (hblock : ∀ i j, i < l.length → j < l.length → i / step = j / step →
      l.get? i = l.get? j) :
    repeatEach step (strided step l) = l := by
  have hstridelen : (strided step l).length = l.length / step := by
    rw [strided_length hstep]
    obtain ⟨m, hm⟩ := hdvd
    rcases Nat.eq_zero_or_pos m with h0 | hm_pos
    · have h1 : 0 + step - 1 = step - 1 := by omega
      rw [hm, h0, Nat.mul_zero, h1, Nat.zero_div]
      exact Nat.div_eq_of_lt (by omega)
    · rw [hm]
      have h1 : step * m + step - 1 = step * m + (step - 1) := by omega
      rw [h1, Nat.mul_add_div (by omega), Nat.div_eq_of_lt (by omega),
          Nat.mul_div_cancel_left m (by omega)]
      omega
  have hfull : step * (l.length / step) = l.length := Nat.mul_div_cancel' hdvd
  have hlen : (repeatEach step (strided step l)).length = l.length := by
    rw [repeatEach_length, hstridelen, hfull]
  apply List.ext_get?
  intro i
  by_cases hi : i < l.length
  · rw [repeatEach_get? hstep (strided step l) i
        (by rw [hstridelen, hfull]; exact hi),
        strided_get? hstep]
    apply hblock
    · exact lt_of_le_of_lt (Nat.div_mul_le_self i step) hi
    · exact hi
    · exact Nat.mul_div_cancel (i / step) (by omega)
  · rw [List.get?_eq_none.mpr
        (show (repeatEach step (strided step l)).length ≤ i by rw [hlen]; omega),
        List.get?_eq_none.mpr (show l.length ≤ i by omega)]

theorem load_hypno_eq {fs : String → Option (List String)} {path : String}
    {npts : Nat} {lines : List String} (hfs : fs path = some lines) :
    load_hypno fs path npts =
      (if (splitext path).2 = ".hyp" then
        catchToResult ((elan_hyp lines npts).bind (fun h => complete_hypno h npts))
      else if (splitext path).2 = ".txt" ∨ (splitext path).2 = ".csv" then
        catchToResult ((txt_hyp fs path npts).bind (fun h => complete_hypno h npts))
      else .noHypno) := by
  unfold load_hypno
  rw [hfs]

/-- Counterexample for C4 as stated: the canonical hypnogram [0,1,0,1] with
consistent parameters sf = 2, sfori = 2, N = 4 (two one-second epochs, write
stride 2) round-trips to [0,0,0,0] — the write keeps one value per epoch and
the reload repeats it, so within-epoch stage changes are lost. -/
theorem elan_roundtrip_cex :
    (∀ v ∈ ([0, 1, 0, 1] : List Int), v ∈ canonSet) ∧
    load_hypno
        (fun p => if p = "h.hyp" then save_hypnoToElan [0, 1, 0, 1] 2 2 4 else none)
        "h.hyp" 4 = .hypno [0, 0, 0, 0] ∧
    ([0, 0, 0, 0] : List Int) ≠ [0, 1, 0, 1] := by
  with_unfolding_all decide

/-- C4 (amended): a canonical hypnogram that is constant on each write-stride
block, with the stride dividing its length, written with `save_hypnoToElan`
and reloaded with `load_hypno` at the same `npts`, yields the same stage
sequence — the on-disk 4-to-5 remapping is inverted by the loader's
5-to-4 remapping. -/
theorem elan_roundtrip (hypno : List Int) (sf sfori : ℚ) (N : Nat) (lines : List String)
    (hcanon : ∀ v ∈ hypno, v ∈ canonSet)
    (hsave : save_hypnoToElan hypno sf sfori N = some lines)
    (hdvd : elanStep hypno.length sfori N ∣ hypno.length)
    (hblock : ∀ i j, i < hypno.length → j < hypno.length →
      i / elanStep hypno.length sfori N = j / elanStep hypno.length sfori N →
      hypno.get? i = hypno.get? j) :
    load_hypno (fun p => if p = "h.hyp" then some lines else none) "h.hyp" hypno.length
      = .hypno hypno := by
  unfold save_hypnoToElan at hsave
  split at hsave
  · exact absurd hsave (by simp)
  · split at hsave
    · exact absurd hsave (by simp)
    · rename_i hE hstep0
      set step := elanStep hypno.length sfori N with hstep_def
      have hstep : 1 ≤ step := by omega
      have hlines : lines =
          elanHypHdr sfori N ++ (strided step (hypno.map elanWriteMap)).map intToStr :=
        (Option.some.inj hsave).symm
      have hEpos : 1 ≤ (elan_epochs sfori N).toNat := by
        push_neg at hE
        omega
      have hL : 1 ≤ hypno.length := by
        have : 1 ≤ hypno.length / (elan_epochs sfori N).toNat := hstep
        rcases Nat.eq_zero_or_pos hypno.length with h0 | h1
        · rw [hstep_def] at hstep
          unfold elanStep at hstep
          rw [h0] at hstep
          simp [Nat.zero_div] at hstep
        · exact h1
      -- the loader sees the body after skipping the 4 header lines
      have hdrop : lines.drop 4 = (strided step (hypno.map elanWriteMap)).map intToStr := by
        rw [hlines]
        have h4 : (elanHypHdr sfori N).length = 4 := rfl
        rw [← h4, List.drop_left]
      -- every written token parses back to its value
      have hparse : parseLines ((strided step (hypno.map elanWriteMap)).map intToStr) =
          some (strided step (hypno.map elanWriteMap)) := by
        apply mapMOpt_map_roundtrip
        intro v hv
        have hv2 := strided_mem hv
        obtain ⟨u, hu_mem, hu⟩ := List.mem_map.mp hv2
        exact pyInt_intToStr_disk v (hu ▸ elanWriteMap_disk u (hcanon u hu_mem))
      -- the loader's remapping inverts the writer's remapping
      have hinv : (strided step (hypno.map elanWriteMap)).map elan_remap
          = strided step hypno := by
        rw [← strided_map hstep, List.map_map]
        have : hypno.map (elan_remap ∘ elanWriteMap) = hypno.map id :=
          List.map_congr_left (fun u hu => elan_remap_elanWriteMap u (hcanon u hu))
        rw [this, List.map_id]
      -- geometry of the strided sequence
      have hstridelen : (strided step hypno).length = hypno.length / step := by
        rw [strided_length hstep]
        obtain ⟨m, hm⟩ := hdvd
        rcases Nat.eq_zero_or_pos m with h0 | hm_pos
        · rw [h0, Nat.mul_zero] at hm
          omega
        · rw [hm]
          have h1 : step * m + step - 1 = step * m + (step - 1) := by omega
          rw [h1, Nat.mul_add_div (by omega), Nat.div_eq_of_lt (by omega),
              Nat.mul_div_cancel_left m (by omega)]
          omega
      have hfull : step * (hypno.length / step) = hypno.length := Nat.mul_div_cancel' hdvd
      have hW : 1 ≤ (strided step hypno).length := by
        rw [hstridelen]
        refine (Nat.one_le_div_iff (by omega)).mpr ?_
        calc step = hypno.length / (elan_epochs sfori N).toNat := hstep_def
        _ ≤ hypno.length := Nat.div_le_self _ _
      have hrep : hypno.length / (strided step hypno).length = step := by
        rw [hstridelen]
        calc hypno.length / (hypno.length / step)
            = step * (hypno.length / step) / (hypno.length / step) := by rw [hfull]
        _ = step := Nat.mul_div_cancel step (by omega)
      -- reassemble the load
      have hfs : (fun p => if p = "h.hyp" then some lines else none) "h.hyp" = some lines := by
        simp
      rw [load_hypno_eq hfs]
      have hext : (splitext "h.hyp").2 = ".hyp" := by decide
      rw [if_pos hext]
      have helan : elan_hyp lines hypno.length = .ok hypno := by
        unfold elan_hyp
        rw [hdrop, hparse]
        show resample ((strided step (hypno.map elanWriteMap)).map elan_remap)
            hypno.length = .ok hypno
        rw [hinv]
        unfold resample
        rw [if_neg (by omega), hrep]
        rw [repeatEach_strided hstep hdvd hblock]
      rw [helan]
      show catchToResult (complete_hypno hypno hypno.length) = .hypno hypno
      rw [complete_hypno_exact rfl]
      rfl

/-- Witness for C4 at the concrete hypnogram [0,0] with sf = sfori = 1,
N = 2 (stride 1). -/
theorem elan_roundtrip_inst :
    ∃ lines, save_hypnoToElan [0, 0] 1 1 2 = some lines ∧
      load_hypno (fun p => if p = "h.hyp" then some lines else none) "h.hyp" 2
        = .hypno [0, 0] := by
  rcases hsv : save_hypnoToElan [0, 0] 1 1 2 with _ | lines
  · exfalso
    revert hsv
    with_unfolding_all decide
  · refine ⟨lines, rfl, ?_⟩
    have hstep : elanStep ([0, 0] : List Int).length 1 2 = 1 := by
      with_unfolding_all decide
    exact elan_roundtrip [0, 0] 1 1 2 lines (by decide) hsv
      (by rw [hstep]; exact Nat.one_dvd _)
      (by
        rw [hstep]
        intro i j hi hj hij
        rw [Nat.div_one, Nat.div_one] at hij
        rw [hij])

theorem get?_isSome_lt {α : Type} {l : List α} {k : Nat} {a : α}
    (h : l.get? k = some a) : k < l.length := by
  by_contra hcon
  push_neg at hcon
  rw [List.get?_eq_none.mpr hcon] at h
  exact absurd h (by simp)

/-- C8: when `elan2array` succeeds on a header whose line 9 declares `C`
channels, it returns exactly `C - 2` channel names, a buffer with `C - 2`
rows, and every row has `ceil(N / ds)` columns for the decimation stride
`ds` computed by the shared downsampling block. -/
theorem elan_channel_exclusion (pf : String → Option ℚ) (ent : List String)
    (words : List Int) (dsOpt : Option ℚ) (r : Recording) (s9 : String) (C : Int)
    (hok : elan2array pf ent words dsOpt = .ok r)
    (h9 : ent.get? 9 = some s9) (hparse : pyInt? s9 = some C) :
    r.chan.length = (C - 2).toNat ∧
    r.data.length = (C - 2).toNat ∧
    ∃ dsF : Option ℚ × ℤ, get_downsample_factor r.sf dsOpt = .ok dsF ∧ 1 ≤ dsF.2 ∧
      ∀ row ∈ r.data, row.length = (r.N + dsF.2.toNat - 1) / dsF.2.toNat := by
  simp only [elan2array] at hok
  split at hok
  · exact absurd hok (by simp)
  · split at hok
    · exact absurd hok (by simp)
    · split at hok
      · exact absurd hok (by simp)
      · split at hok
        · exact absurd hok (by simp)
        · split at hok
          · exact absurd hok (by simp)
          · split at hok
            · exact absurd hok (by simp)
            · split at hok
              · exact absurd hok (by simp)
              · split at hok
                · exact absurd hok (by simp)
                · split at hok
                  · exact absurd hok (by simp)
                  · split at hok
                    · exact absurd hok (by simp)
                    · split at hok
                      · exact absurd hok (by simp)
                      · rename_i x3 s9b heq3 x2 vC heq2 hpos x1 gains heq1 x0 d2 dsInt heq0 hds0
                        obtain rfl := Except.ok.inj hok
                        have hs9eq : s9b = s9 := by
                          rw [heq3] at h9
                          exact Option.some.inj h9
                        rw [hs9eq] at heq2
                        rw [heq2] at hparse
                        obtain rfl := Option.some.inj hparse
                        have hCnat : (vC - 2).toNat = vC.toNat - 2 := by omega
                        have hds1 : 1 ≤ dsInt.toNat := by omega
                        refine ⟨?_, ?_, (d2, dsInt), heq0, by omega, ?_⟩
                        · -- channel names: C - 2, using that the gain loop read up to line 9 + 4C
                          show ((ent.drop 10).take (vC.toNat - 2)).length = (vC - 2).toNat
                          rw [List.length_take, hCnat]
                          refine Nat.min_eq_left ?_
                          rcases Nat.lt_or_ge vC.toNat 3 with hsmall | hbig
                          · rw [List.length_drop]
                            omega
                          · have hi : vC.toNat - 1 ∈ List.range vC.toNat :=
                              List.mem_range.mpr (by omega)
                            have hsome := mapMOpt_some_isSome heq1 _ hi
                            simp only [] at hsome
                            rcases hg1 : ent.get? (9 + 3 * vC.toNat + (vC.toNat - 1) + 1) with _ | a1 <;>
                              rcases hg2 : ent.get? (9 + 4 * vC.toNat + (vC.toNat - 1) + 1) with _ | a2 <;>
                              rcases hg3 : ent.get? (9 + 5 * vC.toNat + (vC.toNat - 1) + 1) with _ | a3 <;>
                              rcases hg4 : ent.get? (9 + 6 * vC.toNat + (vC.toNat - 1) + 1) with _ | a4 <;>
                              first
                                | (rw [List.length_drop]
                                   have hlt := get?_isSome_lt hg1
                                   omega)
                                | (exfalso
                                   rw [hg1, hg2, hg3, hg4] at hsome
                                   simp at hsome)
                        · show (List.map _ (List.range (vC.toNat - 2))).length = (vC - 2).toNat
                          rw [List.length_map, List.length_range, hCnat]
                        · intro row hrow
                          show row.length = (words.length / vC.toNat + dsInt.toNat - 1) / dsInt.toNat
                          obtain ⟨i0, hi0, hrw⟩ := List.mem_map.mp hrow
                          rw [← hrw, List.length_map, strided_length hds1,
                              List.length_map, List.length_range]

/-- Python `float()` on a header token, for the concrete witness header:
integer tokens only. -/
def pfW : String → Option ℚ := fun s => (pyInt? s).map (fun n => (n : ℚ))

/-- A concrete `.ent` header declaring 10 channels: V2 word size, period 1
(line 8), channel count 10 (line 9), name lines, then the four gain blocks at
lines 40-49 (analog min 0), 50-59 (analog max 1), 60-69 (digital min 0) and
70-79 (digital max 2). -/
def entW : List String :=
  ["V2", "x", "x", "x", "No time", "x", "x", "x", "1", "10"]
    ++ List.replicate 30 "n"
    ++ List.replicate 10 "0"
    ++ List.replicate 10 "1"
    ++ List.replicate 10 "0"
    ++ List.replicate 10 "2"

/-- A concrete `.eeg` word sequence: 40 zero words, 4 samples per channel. -/
def wordsW : List Int := List.replicate 40 0

/-- The recording `elan2array` produces on the witness inputs. -/
def rW : Recording :=
  ⟨1, none, List.replicate 8 (List.replicate 4 (0 : ℚ)), List.replicate 8 "n", 4⟩

/-- Witness for C8: the concrete 10-channel header yields 8 names and an
8-by-4 buffer. -/
theorem elan_channel_exclusion_inst :
    ∃ r : Recording, elan2array pfW entW wordsW none = .ok r ∧
      r.chan.length = 8 ∧ r.data.length = 8 ∧
      ∃ dsF : Option ℚ × ℤ, get_downsample_factor r.sf none = .ok dsF ∧ 1 ≤ dsF.2 ∧
        ∀ row ∈ r.data, row.length = (r.N + dsF.2.toNat - 1) / dsF.2.toNat := by
  have hok : elan2array pfW entW wordsW none = .ok rW := by with_unfolding_all decide
  obtain ⟨h1, h2, h3⟩ :=
    elan_channel_exclusion pfW entW wordsW none rW "10" 10 hok (by decide) (by decide)
  exact ⟨rW, hok, by rw [h1]; decide, by rw [h2]; decide, h3⟩
